import Mathlib

/-!
Verification of the xdelta patch bundle builder/applier pipeline.

The development shallowly embeds the three Rust crates:

* `patch_types/src/lib.rs` — the `PatchBundle` data model;
* `patch_builder/src/main.rs` — `build_bundle` (tree diffing, classification,
  serial payload-index assignment) and `installer.rs` (container framing);
* `patch_stub/src/main.rs` — `load_bundle` (trailer parsing), `verify_base_folder`
  and `apply_bundle`.

Files are byte lists (`Fin 256`), directory trees are association lists from
relative paths (forward-slash byte strings) to contents.  The content hash and
the xdelta codec are opaque in the source (blake3 / xdelta3), so they appear as
function parameters `H`, `E`, `D`.  Machine integers in the trailer logic are
modelled as `Nat` with explicit reduction mod `2 ^ 64` (release-mode wrapping
semantics of Rust `u64` arithmetic).  The bincode encoding (config `standard()`:
little-endian, variable-width integers, length-prefixed sequences, raw 32-byte
arrays) is modelled concretely by `decodePatchBundle` / `encodePatchBundle`.
-/

namespace XPatch

/-- Byte values, as stored in files and bundles. -/
abbrev Byte := Fin 256

/-- Byte strings: file contents, relative paths, hash digests. -/
abbrev Bytes := List Byte

/-- The 32-byte all-zeros digest, `[0u8; 32]` in the source; it marks a file
absent from one of the two trees. -/
def zeroHash : Bytes := List.replicate 32 0

/-- Type `PatchKind` from `patch_types/src/lib.rs`. -/
inductive PatchKind where
  | Unchanged : PatchKind
  | Patched (idx : Nat) : PatchKind
  | Added (idx : Nat) : PatchKind
  | Deleted : PatchKind
deriving DecidableEq, Repr

/-- Type `PatchData` from `patch_types/src/lib.rs`: tagged opaque payload. -/
inductive PatchData where
  | Xdelta (bytes : Bytes) : PatchData
  | Full (bytes : Bytes) : PatchData
deriving DecidableEq, Repr

/-- Type `FileEntry` from `patch_types/src/lib.rs`.  Paths and hashes are byte
strings (the Rust `String` path is its UTF-8 bytes). -/
structure FileEntry where
  path : Bytes
  kind : PatchKind
  original_hash : Bytes
  new_hash : Bytes
deriving DecidableEq, Repr

/-- Type `Manifest` from `patch_types/src/lib.rs`. -/
structure Manifest where
  product : Bytes
  from_version : Bytes
  to_version : Bytes
  files : List FileEntry
deriving DecidableEq, Repr

/-- Type `PatchBundle` from `patch_types/src/lib.rs`. -/
structure PatchBundle where
  manifest : Manifest
  entries : List PatchData
deriving DecidableEq, Repr

/-! ## Filesystem model

A directory tree is a finite map from relative path to file contents,
represented as an association list.  The applier's filesystem effects
(`File::create`, `fs::rename`, `fs::remove_file`, existence tests) become
operations on this map.  Directories are implicit: the source only ever
creates parent directories (`create_dir_all`), which does not affect any
file's contents. -/

/-- A directory tree: association list from relative path to contents. -/
abbrev FS := List (Bytes × Bytes)

/-- Look a path up in a tree (first matching entry). -/
def fsGet : FS → Bytes → Option Bytes
  | [], _ => none
  | (q, b) :: rest, p => if q = p then some b else fsGet rest p

/-- Test `Path::exists` on the tree. -/
def fsExists (fs : FS) (p : Bytes) : Bool := (fsGet fs p).isSome

/-- Create-or-truncate a file with the given contents (`File::create` then
`write_all`). -/
def fsWrite : FS → Bytes → Bytes → FS
  | [], p, b => [(p, b)]
  | (q, c) :: rest, p, b => if q = p then (q, b) :: rest else (q, c) :: fsWrite rest p b

/-- Model of `fs::remove_file`. -/
def fsRemove : FS → Bytes → FS
  | [], _ => []
  | (q, c) :: rest, p => if q = p then fsRemove rest p else (q, c) :: fsRemove rest p

/-- Model of `fs::rename src dst`: move the contents at `src` over `dst`.  The applier
only ever renames a file it has just created, so the missing-source branch is
never reached in any trace considered here. -/
def fsRename (fs : FS) (src dst : Bytes) : FS :=
  match fsGet fs src with
  | none => fs
  | some b => fsWrite (fsRemove fs src) dst b


/-! ## Temporary-file naming

`apply_bundle` derives the temporary path by `tmp.set_extension("tmp")` on the
target (`patch_stub/src/main.rs`, the `Added` and `Patched` arms).  Rust
`Path::set_extension` acts on the file name (the segment after the last `/`):
the portion after the last dot is replaced, except that a dot leading the file
name does not begin an extension; a file name without an extension gets `.tmp`
appended. -/

/-- The index of the last occurrence of `c`, if any. -/
def lastIdx (c : Byte) : Bytes → Option Nat
  | [] => none
  | b :: rest =>
    match lastIdx c rest with
    | some i => some (i + 1)
    | none => if b = c then some 0 else none

/-- ASCII `/`. -/
def slashB : Byte := 47
/-- ASCII `.`. -/
def dotB : Byte := 46
/-- The bytes of `".tmp"`. -/
def dotTmp : Bytes := [46, 116, 109, 112]

/-- Effect of `set_extension` with `tmp` on a bare file name. -/
def setTmpName (name : Bytes) : Bytes :=
  match lastIdx dotB name with
  | some i => if 0 < i then name.take i ++ dotTmp else name ++ dotTmp
  | none => name ++ dotTmp

/-- The temporary sibling used by the applier for a manifest path: the file
name's extension replaced by `tmp`. -/
def tmpPath (p : Bytes) : Bytes :=
  match lastIdx slashB p with
  | some i => p.take (i + 1) ++ setTmpName (p.drop (i + 1))
  | none => setTmpName p


/-! ## Binary codec

Bincode with `config::standard()`: little-endian, variable-width integer
encoding (single byte below 251; `251`/`252`/`253` tag a little-endian
u16/u32/u64), length-prefixed sequences and strings, enum variants tagged by a
varint u32 discriminant in declaration order, `[u8; 32]` written raw.  Decoders
return the decoded value and the remaining bytes; `borrow_decode_from_slice`
likewise reports the consumed count and never requires the buffer to be fully
consumed. -/

/-- Reduce a natural number to a byte. -/
def byteOf (x : Nat) : Byte := ⟨x % 256, Nat.mod_lt x (by norm_num)⟩

/-- Decode a bincode variable-width unsigned integer. -/
def decVarint : Bytes → Option (Nat × Bytes)
  | [] => none
  | b :: r =>
    if b.val < 251 then some (b.val, r)
    else if b.val = 251 then
      match r with
      | b0 :: b1 :: r2 => some (b0.val + 256 * b1.val, r2)
      | _ => none
    else if b.val = 252 then
      match r with
      | b0 :: b1 :: b2 :: b3 :: r2 =>
        some (b0.val + 256 * (b1.val + 256 * (b2.val + 256 * b3.val)), r2)
      | _ => none
    else if b.val = 253 then
      match r with
      | b0 :: b1 :: b2 :: b3 :: b4 :: b5 :: b6 :: b7 :: r2 =>
        some (b0.val + 256 * (b1.val + 256 * (b2.val + 256 * (b3.val + 256 *
          (b4.val + 256 * (b5.val + 256 * (b6.val + 256 * b7.val)))))), r2)
      | _ => none
    else none

/-- Take exactly `n` raw bytes. -/
def decRaw (n : Nat) (l : Bytes) : Option (Bytes × Bytes) :=
  if n ≤ l.length then some (l.take n, l.drop n) else none

/-- Decode a length-prefixed byte sequence (`Vec<u8>` or `String`). -/
def decVec (l : Bytes) : Option (Bytes × Bytes) :=
  match decVarint l with
  | none => none
  | some (n, r) => decRaw n r

/-- Decode a `PatchKind`. -/
def decKind (l : Bytes) : Option (PatchKind × Bytes) :=
  match decVarint l with
  | none => none
  | some (d, r) =>
    match d with
    | 0 => some (.Unchanged, r)
    | 1 =>
      match decVarint r with
      | none => none
      | some (i, r2) => some (.Patched i, r2)
    | 2 =>
      match decVarint r with
      | none => none
      | some (i, r2) => some (.Added i, r2)
    | 3 => some (.Deleted, r)
    | _ => none

/-- Decode a `PatchData`. -/
def decData (l : Bytes) : Option (PatchData × Bytes) :=
  match decVarint l with
  | none => none
  | some (d, r) =>
    match d with
    | 0 =>
      match decVec r with
      | none => none
      | some (bs, r2) => some (.Xdelta bs, r2)
    | 1 =>
      match decVec r with
      | none => none
      | some (bs, r2) => some (.Full bs, r2)
    | _ => none

/-- Decode a `FileEntry`. -/
def decEntry (l : Bytes) : Option (FileEntry × Bytes) :=
  match decVec l with
  | none => none
  | some (p, r1) =>
    match decKind r1 with
    | none => none
    | some (k, r2) =>
      match decRaw 32 r2 with
      | none => none
      | some (oh, r3) =>
        match decRaw 32 r3 with
        | none => none
        | some (nh, r4) => some (⟨p, k, oh, nh⟩, r4)

/-- Decode `n` consecutive values. -/
def decList {α : Type} (d : Bytes → Option (α × Bytes)) : Nat → Bytes → Option (List α × Bytes)
  | 0, l => some ([], l)
  | n + 1, l =>
    match d l with
    | none => none
    | some (a, r) =>
      match decList d n r with
      | none => none
      | some (xs, r2) => some (a :: xs, r2)

/-- Decode a length-prefixed sequence. -/
def decSeq {α : Type} (d : Bytes → Option (α × Bytes)) (l : Bytes) : Option (List α × Bytes) :=
  match decVarint l with
  | none => none
  | some (n, r) => decList d n r

/-- Decode a `Manifest`. -/
def decManifest (l : Bytes) : Option (Manifest × Bytes) :=
  match decVec l with
  | none => none
  | some (product, r1) =>
    match decVec r1 with
    | none => none
    | some (fromv, r2) =>
      match decVec r2 with
      | none => none
      | some (tov, r3) =>
        match decSeq decEntry r3 with
        | none => none
        | some (files, r4) => some (⟨product, fromv, tov, files⟩, r4)

/-- Decode a `PatchBundle`, returning the remaining (ignored) bytes. -/
def decodePatchBundle (l : Bytes) : Option (PatchBundle × Bytes) :=
  match decManifest l with
  | none => none
  | some (m, r1) =>
    match decSeq decData r1 with
    | none => none
    | some (es, r2) => some (⟨m, es⟩, r2)

/-- The `k` little-endian bytes of `n`. -/
def leBytes : Nat → Nat → Bytes
  | 0, _ => []
  | k + 1, n => byteOf n :: leBytes k (n / 256)

/-- Encode a bincode variable-width unsigned integer. -/
def encVarint (n : Nat) : Bytes :=
  if n < 251 then [byteOf n]
  else if n < 2 ^ 16 then byteOf 251 :: leBytes 2 n
  else if n < 2 ^ 32 then byteOf 252 :: leBytes 4 n
  else byteOf 253 :: leBytes 8 n

/-- Encode a length-prefixed byte sequence. -/
def encVec (b : Bytes) : Bytes := encVarint b.length ++ b

/-- Encode a `PatchKind`. -/
def encKind : PatchKind → Bytes
  | .Unchanged => encVarint 0
  | .Patched i => encVarint 1 ++ encVarint i
  | .Added i => encVarint 2 ++ encVarint i
  | .Deleted => encVarint 3

/-- Encode a `PatchData`. -/
def encData : PatchData → Bytes
  | .Xdelta bs => encVarint 0 ++ encVec bs
  | .Full bs => encVarint 1 ++ encVec bs

/-- Encode a `FileEntry`. -/
def encEntry (f : FileEntry) : Bytes :=
  encVec f.path ++ encKind f.kind ++ f.original_hash ++ f.new_hash

/-- Encode a `Manifest`. -/
def encManifest (m : Manifest) : Bytes :=
  encVec m.product ++ encVec m.from_version ++ encVec m.to_version ++
    encVarint m.files.length ++ (m.files.map encEntry).flatten

/-- Encode a `PatchBundle`, as `bincode::encode_to_vec` does in
`installer.rs`. -/
def encodePatchBundle (b : PatchBundle) : Bytes :=
  encManifest b.manifest ++ encVarint b.entries.length ++ (b.entries.map encData).flatten

/-- Function `build_installer_exe` from `patch_builder/src/installer.rs`: the output
executable is stub bytes, then the encoded bundle, then the u64 little-endian
bundle length. -/
def build_installer_exe (stub : Bytes) (b : PatchBundle) : Bytes :=
  let enc := encodePatchBundle b
  stub ++ enc ++ leBytes 8 enc.length

/-! ## The applier stub

`patch_stub/src/main.rs`.  Errors carry the offending path where the source's
`bail!`/`context` message does. -/

/-- One constructor per distinct failure site of the stub. -/
inductive StubError where
  | invalidExe : StubError
  | invalidLen : StubError
  | shortRead : StubError
  | decodeFail : StubError
  | preconditionMissing (path : Bytes) : StubError
  | preconditionMismatch (path : Bytes) : StubError
  | invalidIdx (path : Bytes) : StubError
  | wrongData (path : Bytes) : StubError
  | openFail (path : Bytes) : StubError
  | codecFail (path : Bytes) : StubError
deriving DecidableEq, Repr

/-- The spec's *InvalidBundle* error kind: trailer unreadable, `bundle_len`
inconsistent with the file, or decoder rejection (spec section 7). -/
def InvalidBundleKind : StubError → Prop := fun e =>
  e = .invalidExe ∨ e = .invalidLen ∨ e = .shortRead ∨ e = .decodeFail

/-- Reduction mod `2 ^ 64`: Rust `u64` wrapping arithmetic in a release
build. -/
def wrap64 (n : Nat) : Nat := n % 2 ^ 64

/-- A little-endian u64 read from a byte string (first byte least
significant). -/
def readLE64 (l : Bytes) : Nat := l.foldr (fun b acc => b.val + 256 * acc) 0

/-- The footer: the last 8 bytes of the executable as a little-endian u64. -/
def footerVal (exe : Bytes) : Nat := readLE64 (exe.drop (exe.length - 8))

/-- The seek target `len - 8 - bundle_len`, evaluated in wrapping u64
arithmetic; meaningful for `8 ≤ len < 2 ^ 64`. -/
def bundleStart (len bl : Nat) : Nat := wrap64 (len - 8 + (2 ^ 64 - wrap64 bl))

/-- Function `load_bundle`: self-locate, check `len ≥ 8`, read the footer, check
`bundle_len + 8 > len` (wrapping), seek to `len - 8 - bundle_len`, read
`bundle_len` bytes (`read_exact` fails when they are not all available) and
bincode-decode them, ignoring any unconsumed suffix. -/
def load_bundle (exe : Bytes) : Except StubError PatchBundle :=
  if exe.length < 8 then .error .invalidExe
  else
    let bl := footerVal exe
    if wrap64 (bl + 8) > exe.length then .error .invalidLen
    else
      let start := bundleStart exe.length bl
      if start + bl ≤ exe.length then
        match decodePatchBundle ((exe.drop start).take bl) with
        | some (b, _) => .ok b
        | none => .error .decodeFail
      else .error .shortRead

/-- Whether `verify_base_folder` examines entries of this kind (the match arm
`Unchanged | Patched {..} | Deleted`). -/
def kindVerified : PatchKind → Bool
  | .Added _ => false
  | _ => true

/-- Whether applying this kind goes through the tmp-write-then-rename path. -/
def kindWrites : PatchKind → Bool
  | .Added _ => true
  | .Patched _ => true
  | _ => false

/-- One iteration of the `verify_base_folder` loop. -/
def verifyEntry (H : Bytes → Bytes) (fs : FS) (f : FileEntry) : Except StubError Unit :=
  match f.kind with
  | .Added _ => .ok ()
  | _ =>
    if f.original_hash = zeroHash then .ok ()
    else
      match fsGet fs f.path with
      | none => .error (.preconditionMissing f.path)
      | some c =>
        if H c = f.original_hash then .ok ()
        else .error (.preconditionMismatch f.path)

/-- The `verify_base_folder` loop over the manifest, first failure wins. -/
def verifyFiles (H : Bytes → Bytes) (fs : FS) : List FileEntry → Except StubError Unit
  | [] => .ok ()
  | f :: rest =>
    match verifyEntry H fs f with
    | .error e => .error e
    | .ok _ => verifyFiles H fs rest

/-- Function `verify_base_folder` from `patch_stub/src/main.rs`. -/
def verify_base_folder (H : Bytes → Bytes) (b : PatchBundle) (fs : FS) : Except StubError Unit :=
  verifyFiles H fs b.manifest.files

/-- One `FileEntry` applied to the tree: the body of the `apply_bundle`
closure.  `D` is `xdelta3::decode`. -/
def applyEntry (D : Bytes → Bytes → Option Bytes) (entries : List PatchData)
    (fs : FS) (f : FileEntry) : Except StubError FS :=
  match f.kind with
  | .Unchanged => .ok fs
  | .Deleted => .ok (if fsExists fs f.path then fsRemove fs f.path else fs)
  | .Added i =>
    match entries[i]? with
    | none => .error (.invalidIdx f.path)
    | some (.Xdelta _) => .error (.wrongData f.path)
    | some (.Full bytes) =>
      let tmp := tmpPath f.path
      .ok (fsRename (fsWrite fs tmp bytes) tmp f.path)
  | .Patched i =>
    match entries[i]? with
    | none => .error (.invalidIdx f.path)
    | some (.Full _) => .error (.wrongData f.path)
    | some (.Xdelta patch) =>
      match fsGet fs f.path with
      | none => .error (.openFail f.path)
      | some org =>
        match D patch org with
        | none => .error (.codecFail f.path)
        | some newBytes =>
          let tmp := tmpPath f.path
          .ok (fsRename (fsWrite fs tmp newBytes) tmp f.path)

/-- The `apply_bundle` traversal: the source's parallel
`files.par_iter().try_for_each` serialized in manifest order (rayon promises
no ordering between files).  An error aborts the remaining work and leaves
already-applied files applied (the partially mutated tree is returned
alongside the error).  Facts proved over this serialization either concern a
single entry or an error path, or carry disjoint-footprint hypotheses under
which every schedule of the per-file work units computes the same tree as
the in-order fold (see `applyFiles_perm`). -/
def applyFiles (D : Bytes → Bytes → Option Bytes) (entries : List PatchData) :
    FS → List FileEntry → Option StubError × FS
  | fs, [] => (none, fs)
  | fs, f :: rest =>
    match applyEntry D entries fs f with
    | .error e => (some e, fs)
    | .ok fs1 => applyFiles D entries fs1 rest

/-- Function `apply_bundle` from `patch_stub/src/main.rs`. -/
def apply_bundle (D : Bytes → Bytes → Option Bytes) (b : PatchBundle) (fs : FS) :
    Option StubError × FS :=
  applyFiles D b.entries fs b.manifest.files

/-- Verification runs to completion before the first apply step (`main`):
a verification error returns with the tree untouched. -/
def verifyThenApply (H : Bytes → Bytes) (D : Bytes → Bytes → Option Bytes)
    (b : PatchBundle) (fs : FS) : Option StubError × FS :=
  match verify_base_folder H b fs with
  | .error e => (some e, fs)
  | .ok _ => apply_bundle D b fs

/-- The stub's `main`: load, verify, apply. -/
def runStub (H : Bytes → Bytes) (D : Bytes → Bytes → Option Bytes)
    (exe : Bytes) (fs : FS) : Option StubError × FS :=
  match load_bundle exe with
  | .error e => (some e, fs)
  | .ok b => verifyThenApply H D b fs

/-! ## The builder

`patch_builder/src/main.rs`.  Directory walks are represented by their
results: `oldList` and `newList` are the `(rel, contents)` records in
enumeration order.  `H` is the content hash (blake3), `E` is
`xdelta3::encode`. -/

/-- Builder failure: `create_patch`'s encoder error (file I/O cannot fail in
the tree model). -/
inductive BuildError where
  | encodeFail (path : Bytes) : BuildError
deriving DecidableEq, Repr

/-- Type `TempKind` from `patch_builder/src/main.rs`. -/
inductive TempKind where
  | Unchanged : TempKind
  | Added (d : PatchData) : TempKind
  | Patched (d : PatchData) : TempKind
deriving DecidableEq, Repr

/-- Type `TempResult` from `patch_builder/src/main.rs`. -/
structure TempResult where
  path : Bytes
  original_hash : Bytes
  new_hash : Bytes
  kind : TempKind
deriving DecidableEq, Repr

/-- Classification of one new-tree record: the body of the parallel map in
`build_bundle` (`create_patch` calls `xdelta3::encode(new, old)`). -/
def classify (E : Bytes → Bytes → Option Bytes) (H : Bytes → Bytes)
    (oldList : FS) (rec : Bytes × Bytes) : Except BuildError TempResult :=
  let newHash := H rec.2
  match fsGet oldList rec.1 with
  | some oldContents =>
    let oldHash := H oldContents
    if oldHash = newHash then
      .ok ⟨rec.1, oldHash, newHash, .Unchanged⟩
    else
      match E rec.2 oldContents with
      | none => .error (.encodeFail rec.1)
      | some patch => .ok ⟨rec.1, oldHash, newHash, .Patched (.Xdelta patch)⟩
  | none => .ok ⟨rec.1, zeroHash, newHash, .Added (.Full rec.2)⟩

/-- Order-preserving effectful map: `.collect::<Result<Vec<_>, _>>()`. -/
def mapE {α β ε : Type} (f : α → Except ε β) : List α → Except ε (List β)
  | [] => .ok []
  | a :: rest =>
    match f a with
    | .error e => .error e
    | .ok b =>
      match mapE f rest with
      | .error e => .error e
      | .ok bs => .ok (b :: bs)

/-- The serial assembly pass of `build_bundle`: walk the collected
`TempResult`s in order, pushing payloads and assigning each the next index
(`let idx = entries_vec.len()`). -/
def assemble : List PatchData × List FileEntry → List TempResult → List PatchData × List FileEntry
  | acc, [] => acc
  | (es, fls), r :: rest =>
    match r.kind with
    | .Unchanged =>
      assemble (es, fls ++ [⟨r.path, .Unchanged, r.original_hash, r.new_hash⟩]) rest
    | .Added d =>
      assemble (es ++ [d], fls ++ [⟨r.path, .Added es.length, r.original_hash, r.new_hash⟩]) rest
    | .Patched d =>
      assemble (es ++ [d], fls ++ [⟨r.path, .Patched es.length, r.original_hash, r.new_hash⟩]) rest

/-- The old-tree record is absent from the new tree (`!new_set.contains`). -/
def notInNew (newList : FS) (r : Bytes × Bytes) : Bool :=
  !(newList.any (fun s => decide (s.1 = r.1)))

/-- The `Deleted` tail of the manifest: old-tree files missing from the new
tree, hashed, in old-tree enumeration order; empty unless `delete_extra`. -/
def deletedOf (H : Bytes → Bytes) (oldList newList : FS) (de : Bool) : List FileEntry :=
  if de then
    (oldList.filter (notInNew newList)).map (fun r => ⟨r.1, .Deleted, H r.2, zeroHash⟩)
  else []

/-- Function `build_bundle` from `patch_builder/src/main.rs`. -/
def build_bundle (E : Bytes → Bytes → Option Bytes) (H : Bytes → Bytes)
    (oldList newList : FS) (product fromv tov : Bytes) (de : Bool) :
    Except BuildError PatchBundle :=
  match mapE (classify E H oldList) newList with
  | .error e => .error e
  | .ok temps =>
    let acc := assemble ([], []) temps
    .ok ⟨⟨product, fromv, tov, acc.2 ++ deletedOf H oldList newList de⟩, acc.1⟩

/-! ### Worker scheduling

The parallel classification is an indexed write-into-preallocated-slot
pattern: a work-stealing pool completes the per-file tasks in some order `σ`,
task `i` storing its result in slot `i`; the results are then collected in
slot order.  Determinism over `σ` is the content of the parallel-determinism
property. -/

/-- Execute the per-item tasks in completion order `σ`, each writing into its
own slot. -/
def runSchedule {α β : Type} (g : α → β) (l : List α) (σ : List Nat) : List (Option β) :=
  σ.foldl (fun acc i => acc.set i ((l[i]?).map g)) (List.replicate l.length none)

/-- Collect the slot vector; `none` marks a task that never ran. -/
def gatherSlots {β : Type} : List (Option β) → Option (List β)
  | [] => some []
  | none :: _ => none
  | some b :: rest =>
    match gatherSlots rest with
    | none => none
    | some bs => some (b :: bs)

/-- Variant of `build_bundle` with the phase-1 classification executed under worker
completion order `σ₁` and the deletion scan under `σ₂`. -/
def buildSched (E : Bytes → Bytes → Option Bytes) (H : Bytes → Bytes)
    (oldList newList : FS) (product fromv tov : Bytes) (de : Bool)
    (σ₁ σ₂ : List Nat) : Option (Except BuildError PatchBundle) :=
  match gatherSlots (runSchedule (classify E H oldList) newList σ₁) with
  | none => none
  | some slotRes =>
    match gatherSlots (runSchedule
        (fun r => (⟨r.1, PatchKind.Deleted, H r.2, zeroHash⟩ : FileEntry))
        (oldList.filter (notInNew newList)) σ₂) with
    | none => none
    | some dels =>
      some (match mapE (fun x => x) slotRes with
        | .error e => .error e
        | .ok temps =>
          let acc := assemble ([], []) temps
          .ok ⟨⟨product, fromv, tov, acc.2 ++ (if de then dels else [])⟩, acc.1⟩)

/-! ### Decomposing the assembly pass -/

/-- The payload list the assembly pass produces, as a pure function of the
collected results. -/
def entriesOfTemps : List TempResult → List PatchData :=
  List.filterMap (fun t =>
    match t.kind with
    | .Unchanged => none
    | .Added d => some d
    | .Patched d => some d)

/-- The manifest entries the assembly pass produces when the payload vector
already holds `base` payloads. -/
def filesOfTemps : Nat → List TempResult → List FileEntry
  | _, [] => []
  | base, t :: ts =>
    match t.kind with
    | .Unchanged => ⟨t.path, .Unchanged, t.original_hash, t.new_hash⟩ :: filesOfTemps base ts
    | .Added _ => ⟨t.path, .Added base, t.original_hash, t.new_hash⟩ :: filesOfTemps (base + 1) ts
    | .Patched _ => ⟨t.path, .Patched base, t.original_hash, t.new_hash⟩ :: filesOfTemps (base + 1) ts

/-- The payload indices referenced by a manifest, in manifest order. -/
def refIdxs (files : List FileEntry) : List Nat :=
  files.filterMap (fun f =>
    match f.kind with
    | .Patched i => some i
    | .Added i => some i
    | _ => none)

/-! ### Specification predicates and concrete instances used by the claims -/

/-- A collision-free hash instance for concrete runs: the identity. -/
def hashId : Bytes → Bytes := fun b => b

/-- A delta encoder for concrete runs: the delta is the new contents. -/
def encFst : Bytes → Bytes → Option Bytes := fun n _ => some n

/-- The decoder matching `encFst`: replay the stored contents. -/
def decFst : Bytes → Bytes → Option Bytes := fun d _ => some d

/-- New tree whose two files collide on the same temporary path: `a.tmp` and
`a.txt` both map to temporary `a.tmp`. -/
def newC1 : FS := [([97, 46, 116, 109, 112], [1]), ([97, 46, 116, 120, 116], [2])]

/-- The bundle `build_bundle` produces for `([], newC1)`. -/
def bC1 : PatchBundle :=
  ⟨⟨[], [], [],
    [⟨[97, 46, 116, 109, 112], .Added 0, zeroHash, [1]⟩,
     ⟨[97, 46, 116, 120, 116], .Added 1, zeroHash, [2]⟩]⟩,
    [.Full [1], .Full [2]]⟩

/-- A bundle violating the cross-variant invariant: entry `b` is
`Patched {idx: 0}` but payload slot 0 is `Full`. -/
def bundleC7 : PatchBundle :=
  ⟨⟨[], [], [],
    [⟨[97], .Added 0, zeroHash, zeroHash⟩,
     ⟨[98], .Patched 0, zeroHash, zeroHash⟩]⟩,
    [.Full [7]]⟩

/-- The executable framing `bundleC7` with an empty stub. -/
def exeC7 : Bytes := build_installer_exe [] bundleC7

/-- The bundle with empty manifest and no payloads; its encoding is five zero
bytes. -/
def emptyBundle : PatchBundle := ⟨⟨[], [], [], []⟩, []⟩

/-- An executable whose footer claims a 10-byte bundle although the encoded
bundle occupies only the last 5 of those bytes; the leading 5 surplus bytes
lie in the stub region and happen to decode as `emptyBundle`, the rest being
ignored. -/
def exeC9 : Bytes := List.replicate 10 0 ++ leBytes 8 10

/-- An 8-byte executable whose footer value 9 points past the file
beginning. -/
def exeC3 : Bytes := [9, 0, 0, 0, 0, 0, 0, 0]

/-- An 8-byte executable whose footer value is `2 ^ 64 − 8`, so the trailer
guard wraps. -/
def exeC8 : Bytes := [248, 255, 255, 255, 255, 255, 255, 255]

/-- An `Unchanged` entry whose recorded pre-image is the contents `[5]`
(under the identity hash). -/
def wEntry : FileEntry := ⟨[97], .Unchanged, [5], [5]⟩

/-- An `Added` entry, never verified. -/
def wAdded : FileEntry := ⟨[98], .Added 0, zeroHash, zeroHash⟩

/-- A bundle whose single entry needs the pre-image `[5]` at path `a`. -/
def wBundle : PatchBundle := ⟨⟨[], [], [], [wEntry]⟩, []⟩

/-- A `Deleted` entry for path `a`. -/
def wDel : FileEntry := ⟨[97], .Deleted, [1], zeroHash⟩

/-- A bundle consisting of the single `Deleted` entry. -/
def wDelBundle : PatchBundle := ⟨⟨[], [], [], [wDel]⟩, []⟩

/-- An `Unchanged` entry for path `a`. -/
def wUnch : FileEntry := ⟨[97], .Unchanged, [1], [1]⟩

/-- A two-file new tree for exercising the scheduled build. -/
def newC5 : FS := [([97], [1]), ([98], [2])]

/-- The bundle `build_bundle` produces for `([], newC5)`. -/
def bC5 : PatchBundle :=
  ⟨⟨[], [], [],
    [⟨[97], .Added 0, zeroHash, [1]⟩, ⟨[98], .Added 1, zeroHash, [2]⟩]⟩,
    [.Full [1], .Full [2]]⟩

theorem assemble_eq (temps : List TempResult) :
    ∀ es fls, assemble (es, fls) temps =
      (es ++ entriesOfTemps temps, fls ++ filesOfTemps es.length temps) := by
  induction temps with
  | nil => intro es fls; simp [assemble, entriesOfTemps, filesOfTemps]
  | cons t ts ih =>
    intro es fls
    cases ht : t.kind with
    | Unchanged =>
      simp [assemble, ht, ih, entriesOfTemps, filesOfTemps]
    | Added d =>
      simp [assemble, ht, ih, entriesOfTemps, filesOfTemps]
    | Patched d =>
      simp [assemble, ht, ih, entriesOfTemps, filesOfTemps]

theorem mapE_forall₂ {α β ε : Type} (f : α → Except ε β) :
    ∀ (l : List α) (r : List β), mapE f l = .ok r →
      List.Forall₂ (fun a b => f a = .ok b) l r := by
  intro l
  induction l with
  | nil =>
    intro r h
    simp only [mapE] at h
    cases h
    exact List.Forall₂.nil
  | cons a rest ih =>
    intro r h
    simp only [mapE] at h
    cases hfa : f a with
    | error e => rw [hfa] at h; cases h
    | ok b =>
      rw [hfa] at h
      cases hrest : mapE f rest with
      | error e => rw [hrest] at h; cases h
      | ok bs =>
        rw [hrest] at h
        cases h
        exact List.Forall₂.cons hfa (ih bs hrest)

/-- A successful build is the assembly of successfully classified results plus
the deletion tail. -/
theorem build_bundle_eq (E : Bytes → Bytes → Option Bytes) (H : Bytes → Bytes)
    (oldList newList : FS) (product fromv tov : Bytes) (de : Bool) (b : PatchBundle)
    (hb : build_bundle E H oldList newList product fromv tov de = .ok b) :
    ∃ temps, mapE (classify E H oldList) newList = .ok temps ∧
      b = ⟨⟨product, fromv, tov, filesOfTemps 0 temps ++ deletedOf H oldList newList de⟩,
        entriesOfTemps temps⟩ := by
  unfold build_bundle at hb
  cases hm : mapE (classify E H oldList) newList with
  | error e => rw [hm] at hb; cases hb
  | ok temps =>
    rw [hm] at hb
    refine ⟨temps, rfl, ?_⟩
    have ha := assemble_eq temps [] []
    simp only [List.nil_append, List.length_nil] at ha
    simp only [ha] at hb
    cases hb
    rfl

/-- Lemma: `classify` keeps the record path and only produces matching
kind/payload pairs. -/
theorem classify_shape (E : Bytes → Bytes → Option Bytes) (H : Bytes → Bytes)
    (oldList : FS) (rec : Bytes × Bytes) (t : TempResult)
    (h : classify E H oldList rec = .ok t) :
    t.path = rec.1 ∧
      (t.kind = .Unchanged ∨ (∃ patch, t.kind = .Patched (.Xdelta patch)) ∨
        (∃ c, t.kind = .Added (.Full c))) := by
  cases ho : fsGet oldList rec.1 with
  | some oldContents =>
    simp only [classify, ho] at h
    by_cases he : H oldContents = H rec.2
    · simp only [if_pos he] at h
      cases h
      exact ⟨rfl, Or.inl rfl⟩
    · simp only [if_neg he] at h
      cases hE : E rec.2 oldContents with
      | none => simp only [hE] at h; cases h
      | some patch =>
        simp only [hE] at h
        cases h
        exact ⟨rfl, Or.inr (Or.inl ⟨patch, rfl⟩)⟩
  | none =>
    simp only [classify, ho] at h
    cases h
    exact ⟨rfl, Or.inr (Or.inr ⟨rec.2, rfl⟩)⟩

theorem fsGet_fsWrite (fs : FS) (p b q) :
    fsGet (fsWrite fs p b) q = if q = p then some b else fsGet fs q := by
  induction fs with
  | nil =>
    by_cases h : q = p
    · subst h; simp [fsWrite, fsGet]
    · have h2 : ¬ p = q := by intro hh; exact h hh.symm
      simp [fsWrite, fsGet, h, h2]
  | cons e rest ih =>
    obtain ⟨r, c⟩ := e
    by_cases h1 : r = p
    · subst h1
      by_cases h2 : r = q
      · subst h2; simp [fsWrite, fsGet]
      · have h3 : ¬ q = r := by intro hh; exact h2 hh.symm
        simp [fsWrite, fsGet, h2, h3]
    · by_cases h2 : r = q
      · subst h2
        have h3 : ¬ r = p := h1
        simp [fsWrite, fsGet, h1, h3]
      · simp [fsWrite, fsGet, h1, h2, ih]

theorem fsGet_fsRemove (fs : FS) (p q) :
    fsGet (fsRemove fs p) q = if q = p then none else fsGet fs q := by
  induction fs with
  | nil => simp [fsRemove, fsGet]
  | cons e rest ih =>
    obtain ⟨r, c⟩ := e
    by_cases h1 : r = p
    · subst h1
      by_cases h2 : q = r
      · subst h2; simp [fsRemove, fsGet, ih]
      · have h3 : ¬ r = q := by intro hh; exact h2 hh.symm
        simp [fsRemove, fsGet, h2, h3, ih]
    · by_cases h2 : r = q
      · subst h2
        have h3 : ¬ r = p := h1
        simp [fsRemove, fsGet, h1, h3]
      · simp [fsRemove, fsGet, h1, h2, ih]

theorem fsRemove_of_absent (fs : FS) (p : Bytes) (h : fsGet fs p = none) :
    fsRemove fs p = fs := by
  induction fs with
  | nil => rfl
  | cons e rest ih =>
    obtain ⟨r, c⟩ := e
    by_cases h1 : r = p
    · simp [fsGet, h1] at h
    · simp only [fsGet, if_neg h1] at h
      simp [fsRemove, h1, ih h]

theorem fsRemove_idem (fs : FS) (p : Bytes) :
    fsRemove (fsRemove fs p) p = fsRemove fs p := by
  apply fsRemove_of_absent
  simp [fsGet_fsRemove]

/-- A lookup misses exactly when the path is not a key of the tree. -/
theorem fsGet_eq_none_iff (fs : FS) (p : Bytes) :
    fsGet fs p = none ↔ p ∉ fs.map Prod.fst := by
  induction fs with
  | nil => simp [fsGet]
  | cons e rest ih =>
    obtain ⟨r, b⟩ := e
    by_cases h : r = p
    · subst h
      simp [fsGet]
    · have h2 : ¬ p = r := by intro hh; exact h hh.symm
      simp only [fsGet, if_neg h, List.map_cons, List.mem_cons]
      constructor
      · intro hn hc
        rcases hc with hc | hc
        · exact h2 hc
        · exact (ih.mp hn) hc
      · intro hn
        exact ih.mpr (fun hc => hn (Or.inr hc))

/-! ## Apply-side lemmas -/

theorem applyEntry_unchanged (D : Bytes → Bytes → Option Bytes)
    (entries : List PatchData) (fs : FS) (f : FileEntry) (h : f.kind = .Unchanged) :
    applyEntry D entries fs f = .ok fs := by
  simp [applyEntry, h]

theorem applyEntry_deleted (D : Bytes → Bytes → Option Bytes)
    (entries : List PatchData) (fs : FS) (f : FileEntry) (h : f.kind = .Deleted) :
    applyEntry D entries fs f = .ok (fsRemove fs f.path) := by
  simp only [applyEntry, h]
  by_cases he : fsExists fs f.path
  · simp [he]
  · have hn : fsGet fs f.path = none := by
      unfold fsExists at he
      cases hg : fsGet fs f.path with
      | none => rfl
      | some c => rw [hg] at he; simp at he
    simp [he, fsRemove_of_absent fs f.path hn]

/-- The net effect on the tree of writing into the temporary sibling and
renaming it over the target. -/
theorem fsGet_writeRename (fs : FS) (p bytes q : Bytes) :
    fsGet (fsRename (fsWrite fs (tmpPath p) bytes) (tmpPath p) p) q =
      if q = p then some bytes
      else if q = tmpPath p then none
      else fsGet fs q := by
  have hsrc : fsGet (fsWrite fs (tmpPath p) bytes) (tmpPath p) = some bytes := by
    rw [fsGet_fsWrite]; simp
  unfold fsRename
  simp only [hsrc]
  rw [fsGet_fsWrite]
  by_cases h1 : q = p
  · rw [if_pos h1, if_pos h1]
  · rw [if_neg h1, if_neg h1, fsGet_fsRemove]
    by_cases h2 : q = tmpPath p
    · rw [if_pos h2, if_pos h2]
    · rw [if_neg h2, if_neg h2, fsGet_fsWrite, if_neg h2]

/-- Whatever one successful entry application does, paths other than the
target and (for the tmp-writing kinds) the temporary sibling are untouched. -/
theorem applyEntry_ok_get (D : Bytes → Bytes → Option Bytes)
    (entries : List PatchData) (fs : FS) (f : FileEntry) (fs1 : FS)
    (h : applyEntry D entries fs f = .ok fs1) (q : Bytes)
    (hq1 : q ≠ f.path) (hq2 : kindWrites f.kind = true → q ≠ tmpPath f.path) :
    fsGet fs1 q = fsGet fs q := by
  cases hk : f.kind with
  | Unchanged =>
    rw [applyEntry_unchanged D entries fs f hk] at h
    cases h
    rfl
  | Deleted =>
    rw [applyEntry_deleted D entries fs f hk] at h
    cases h
    rw [fsGet_fsRemove, if_neg hq1]
  | Added i =>
    simp only [applyEntry, hk] at h
    cases he : entries[i]? with
    | none => simp only [he] at h; cases h
    | some d =>
      cases d with
      | Xdelta bs => simp only [he] at h; cases h
      | Full bs =>
        simp only [he] at h
        cases h
        rw [fsGet_writeRename, if_neg hq1, if_neg (hq2 (by rw [hk]; rfl))]
  | Patched i =>
    simp only [applyEntry, hk] at h
    cases he : entries[i]? with
    | none => simp only [he] at h; cases h
    | some d =>
      cases d with
      | Full bs => simp only [he] at h; cases h
      | Xdelta patch =>
        simp only [he] at h
        cases hg : fsGet fs f.path with
        | none => simp only [hg] at h; cases h
        | some org =>
          simp only [hg] at h
          cases hD : D patch org with
          | none => simp only [hD] at h; cases h
          | some newBytes =>
            simp only [hD] at h
            cases h
            rw [fsGet_writeRename, if_neg hq1, if_neg (hq2 (by rw [hk]; rfl))]

/-- The frame of a whole successful apply run. -/
theorem applyFiles_frame (D : Bytes → Bytes → Option Bytes) (entries : List PatchData) :
    ∀ (files : List FileEntry) (fs fsF : FS),
      applyFiles D entries fs files = (none, fsF) →
      ∀ q, (∀ f ∈ files, q ≠ f.path ∧ (kindWrites f.kind = true → q ≠ tmpPath f.path)) →
        fsGet fsF q = fsGet fs q := by
  intro files
  induction files with
  | nil =>
    intro fs fsF h q _
    simp only [applyFiles, Prod.mk.injEq] at h
    rw [h.2]
  | cons f rest ih =>
    intro fs fsF h q hq
    simp only [applyFiles] at h
    cases ha : applyEntry D entries fs f with
    | error e =>
      simp only [ha, Prod.mk.injEq] at h
      exact absurd h.1 (by simp)
    | ok fs1 =>
      simp only [ha] at h
      have h1 := ih fs1 fsF h q (fun g hg => hq g (List.mem_cons_of_mem f hg))
      have h2 := applyEntry_ok_get D entries fs f fs1 ha q
        (hq f (List.mem_cons_self f rest)).1 (hq f (List.mem_cons_self f rest)).2
      rw [h1, h2]

/-- A list of `Deleted` entries applies without error, removing exactly its
targets. -/
theorem applyFiles_deleted_all (D : Bytes → Bytes → Option Bytes)
    (entries : List PatchData) :
    ∀ (files : List FileEntry), (∀ f ∈ files, f.kind = .Deleted) →
      ∀ fs, ∃ fs1, applyFiles D entries fs files = (none, fs1) ∧
        (∀ f ∈ files, fsGet fs1 f.path = none) ∧
        (∀ q, (∀ f ∈ files, q ≠ f.path) → fsGet fs1 q = fsGet fs q) := by
  intro files
  induction files with
  | nil =>
    intro _ fs
    exact ⟨fs, rfl, by simp, fun q _ => rfl⟩
  | cons f rest ih =>
    intro hall fs
    have hf : f.kind = .Deleted := hall f (List.mem_cons_self f rest)
    obtain ⟨fs1, heq, hnone, hframe⟩ :=
      ih (fun g hg => hall g (List.mem_cons_of_mem f hg)) (fsRemove fs f.path)
    refine ⟨fs1, ?_, ?_, ?_⟩
    · simp only [applyFiles, applyEntry_deleted D entries fs f hf]
      exact heq
    · intro g hg
      rcases List.mem_cons.mp hg with hg | hg
      · subst hg
        by_cases hr : ∀ g2 ∈ rest, g.path ≠ g2.path
        · rw [hframe g.path hr, fsGet_fsRemove, if_pos rfl]
        · push_neg at hr
          obtain ⟨g2, hg2, hpeq⟩ := hr
          rw [hpeq]
          exact hnone g2 hg2
      · exact hnone g hg
    · intro q hq
      rw [hframe q (fun g hg => hq g (List.mem_cons_of_mem f hg)),
        fsGet_fsRemove, if_neg (hq f (List.mem_cons_self f rest))]

/-- Applying `Deleted` entries whose targets are already gone is a no-op. -/
theorem applyFiles_deleted_noop (D : Bytes → Bytes → Option Bytes)
    (entries : List PatchData) :
    ∀ (files : List FileEntry), (∀ f ∈ files, f.kind = .Deleted) →
      ∀ fs, (∀ f ∈ files, fsGet fs f.path = none) →
        applyFiles D entries fs files = (none, fs) := by
  intro files
  induction files with
  | nil => intro _ fs _; rfl
  | cons f rest ih =>
    intro hall fs habs
    have hf : f.kind = .Deleted := hall f (List.mem_cons_self f rest)
    have hr : fsRemove fs f.path = fs :=
      fsRemove_of_absent fs f.path (habs f (List.mem_cons_self f rest))
    simp only [applyFiles, applyEntry_deleted D entries fs f hf, hr]
    exact ih (fun g hg => hall g (List.mem_cons_of_mem f hg)) fs
      (fun g hg => habs g (List.mem_cons_of_mem f hg))



theorem forall₂_mem_right {α β : Type} {R : α → β → Prop} :
    ∀ {l : List α} {r : List β}, List.Forall₂ R l r → ∀ b ∈ r, ∃ a ∈ l, R a b := by
  intro l r h
  induction h with
  | nil => intro b hb; cases hb
  | cons hR hrest ih =>
    intro b hb
    rcases List.mem_cons.mp hb with hb | hb
    · subst hb
      exact ⟨_, List.mem_cons_self _ _, hR⟩
    · obtain ⟨a, ha, hRa⟩ := ih b hb
      exact ⟨a, List.mem_cons_of_mem _ ha, hRa⟩

/-- Classification preserves the enumeration order of relative paths. -/
theorem temps_map_path (E : Bytes → Bytes → Option Bytes) (H : Bytes → Bytes)
    (oldList newList : FS) (temps : List TempResult)
    (h : mapE (classify E H oldList) newList = .ok temps) :
    temps.map TempResult.path = newList.map Prod.fst := by
  have h2 := mapE_forall₂ _ _ _ h
  clear h
  induction h2 with
  | nil => rfl
  | cons hR hrest ih =>
    simp only [List.map_cons, ih]
    rw [(classify_shape _ _ _ _ _ hR).1]

theorem filesOfTemps_map_path :
    ∀ (temps : List TempResult) (base : Nat),
      (filesOfTemps base temps).map FileEntry.path = temps.map TempResult.path := by
  intro temps
  induction temps with
  | nil => intro base; rfl
  | cons t ts ih =>
    intro base
    cases hk : t.kind <;> simp [filesOfTemps, hk, ih]

/-- The kind/payload coupling of assembled entries, needing only the shape of
the collected results. -/
theorem filesOfTemps_refok :
    ∀ (temps : List TempResult) (base : Nat) (E2 : List PatchData),
      (∀ j d, (entriesOfTemps temps)[j]? = some d → E2[base + j]? = some d) →
      (∀ t ∈ temps, t.kind = .Unchanged ∨ (∃ patch, t.kind = .Patched (.Xdelta patch)) ∨
        (∃ c, t.kind = .Added (.Full c))) →
      ∀ f ∈ filesOfTemps base temps,
        (∀ i, f.kind = .Patched i → ∃ patch, E2[i]? = some (.Xdelta patch)) ∧
        (∀ i, f.kind = .Added i → ∃ c, E2[i]? = some (.Full c)) := by
  intro temps
  induction temps with
  | nil => intro base E2 _ _ f hf; simp [filesOfTemps] at hf
  | cons t ts ih =>
    intro base E2 hE hS f hf
    have hSt := hS t (List.mem_cons_self t ts)
    cases hk : t.kind with
    | Unchanged =>
      simp only [filesOfTemps, hk] at hf
      rcases List.mem_cons.mp hf with hf | hf
      · subst hf
        constructor
        · intro i hi; cases hi
        · intro i hi; cases hi
      · refine ih base E2 ?_ (fun t2 ht2 => hS t2 (List.mem_cons_of_mem t ht2)) f hf
        intro j d hj
        apply hE
        simpa [entriesOfTemps, List.filterMap_cons, hk] using hj
    | Added d =>
      rcases hSt with hc | hc | hc
      · rw [hk] at hc; cases hc
      · obtain ⟨patch, hc⟩ := hc; rw [hk] at hc; cases hc
      obtain ⟨c, hc⟩ := hc
      rw [hk] at hc
      cases hc
      simp only [filesOfTemps, hk] at hf
      rcases List.mem_cons.mp hf with hf | hf
      · subst hf
        constructor
        · intro i hi; cases hi
        · intro i hi
          cases hi
          have h0 : (entriesOfTemps (t :: ts))[0]? = some (PatchData.Full c) := by
            simp [entriesOfTemps, List.filterMap_cons, hk]
          have h1 := hE 0 _ h0
          rw [Nat.add_zero] at h1
          exact ⟨c, h1⟩
      · refine ih (base + 1) E2 ?_ (fun t2 ht2 => hS t2 (List.mem_cons_of_mem t ht2)) f hf
        intro j d2 hj
        have h0 : (entriesOfTemps (t :: ts))[j + 1]? = some d2 := by
          simpa [entriesOfTemps, List.filterMap_cons, hk] using hj
        have h2 := hE (j + 1) d2 h0
        rw [show base + (j + 1) = base + 1 + j by omega] at h2
        exact h2
    | Patched d =>
      rcases hSt with hc | hc | hc
      · rw [hk] at hc; cases hc
      · obtain ⟨patch, hc⟩ := hc
        rw [hk] at hc
        cases hc
        simp only [filesOfTemps, hk] at hf
        rcases List.mem_cons.mp hf with hf | hf
        · subst hf
          constructor
          · intro i hi
            cases hi
            have h0 : (entriesOfTemps (t :: ts))[0]? = some (PatchData.Xdelta patch) := by
              simp [entriesOfTemps, List.filterMap_cons, hk]
            have h1 := hE 0 _ h0
            rw [Nat.add_zero] at h1
            exact ⟨patch, h1⟩
          · intro i hi; cases hi
        · refine ih (base + 1) E2 ?_ (fun t2 ht2 => hS t2 (List.mem_cons_of_mem t ht2)) f hf
          intro j d2 hj
          have h0 : (entriesOfTemps (t :: ts))[j + 1]? = some d2 := by
            simpa [entriesOfTemps, List.filterMap_cons, hk] using hj
          have h2 := hE (j + 1) d2 h0
          rw [show base + (j + 1) = base + 1 + j by omega] at h2
          exact h2
      · obtain ⟨c, hc⟩ := hc; rw [hk] at hc; cases hc

theorem refIdxs_filesOfTemps :
    ∀ (temps : List TempResult) (base : Nat),
      refIdxs (filesOfTemps base temps) = List.range' base (entriesOfTemps temps).length := by
  intro temps
  induction temps with
  | nil => intro base; rfl
  | cons t ts ih =>
    intro base
    cases hk : t.kind with
    | Unchanged =>
      simp only [filesOfTemps, hk, refIdxs, List.filterMap_cons, entriesOfTemps] at ih ⊢
      exact ih base
    | Added d =>
      simp only [filesOfTemps, hk, refIdxs, List.filterMap_cons, entriesOfTemps,
        List.length_cons, List.range'_succ]
      have h1 := ih (base + 1)
      simp only [refIdxs, entriesOfTemps] at h1
      rw [h1]
    | Patched d =>
      simp only [filesOfTemps, hk, refIdxs, List.filterMap_cons, entriesOfTemps,
        List.length_cons, List.range'_succ]
      have h1 := ih (base + 1)
      simp only [refIdxs, entriesOfTemps] at h1
      rw [h1]

theorem refIdxs_all_deleted :
    ∀ (l : List FileEntry), (∀ f ∈ l, f.kind = .Deleted) → refIdxs l = [] := by
  intro l
  induction l with
  | nil => intro _; rfl
  | cons f rest ih =>
    intro hall
    have hf := hall f (List.mem_cons_self f rest)
    simp only [refIdxs, List.filterMap_cons, hf]
    exact ih (fun g hg => hall g (List.mem_cons_of_mem f hg))

theorem refIdxs_append (l1 l2 : List FileEntry) :
    refIdxs (l1 ++ l2) = refIdxs l1 ++ refIdxs l2 := by
  simp [refIdxs]

/-- Every `Deleted` tail entry records a file of the old tree missing from
the new tree, with its honest hash. -/
theorem deletedOf_mem (H : Bytes → Bytes) (oldList newList : FS) (de : Bool)
    (f : FileEntry) (hf : f ∈ deletedOf H oldList newList de) :
    f.kind = .Deleted ∧ fsGet newList f.path = none ∧
      ∃ r ∈ oldList, r.1 = f.path ∧ f.original_hash = H r.2 := by
  unfold deletedOf at hf
  cases de with
  | false => simp at hf
  | true =>
    simp only [if_pos] at hf
    obtain ⟨r, hr, hmk⟩ := List.mem_map.mp hf
    obtain ⟨hrold, hpred⟩ := List.mem_filter.mp hr
    cases hmk
    refine ⟨rfl, ?_, r, hrold, rfl, rfl⟩
    rw [fsGet_eq_none_iff]
    intro hmem
    obtain ⟨s, hs, hfst⟩ := List.mem_map.mp hmem
    simp only [notInNew, Bool.not_eq_true', List.any_eq_false, decide_eq_true_eq] at hpred
    exact hpred s hs hfst

theorem deletedOf_true_map_path (H : Bytes → Bytes) (oldList newList : FS) :
    (deletedOf H oldList newList true).map FileEntry.path =
      (oldList.filter (notInNew newList)).map Prod.fst := by
  simp [deletedOf, List.map_map]



/-! ## Worker-scheduling lemmas -/

theorem foldl_set_get {β : Type} (w : Nat → Option β) :
    ∀ (σ : List Nat) (slots : List (Option β)) (i : Nat),
      (σ.foldl (fun acc j => acc.set j (w j)) slots)[i]? =
        if i ∈ σ then (if i < slots.length then some (w i) else none)
        else slots[i]? := by
  intro σ
  induction σ with
  | nil => intro slots i; simp
  | cons j σ2 ih =>
    intro slots i
    simp only [List.foldl_cons]
    rw [ih]
    by_cases h1 : i ∈ j :: σ2
    · rw [if_pos h1]
      by_cases h2 : i ∈ σ2
      · rw [if_pos h2, List.length_set]
      · rw [if_neg h2]
        have hij : i = j := by
          rcases List.mem_cons.mp h1 with h | h
          · exact h
          · exact absurd h h2
        subst hij
        by_cases h3 : i < slots.length
        · rw [if_pos h3, List.getElem?_set_self h3]
        · rw [if_neg h3,
            List.getElem?_eq_none (by rw [List.length_set]; exact Nat.not_lt.mp h3)]
    · rw [if_neg h1]
      have h2 : i ∉ σ2 := fun hh => h1 (List.mem_cons_of_mem j hh)
      have h3 : ¬ i = j := fun hh => h1 (hh ▸ List.mem_cons_self j σ2)
      rw [if_neg h2, List.getElem?_set_ne (fun hh => h3 hh.symm)]

/-- As long as every task index runs, the slot vector after any completion
order equals the serial map. -/
theorem runSchedule_perm {α β : Type} (g : α → β) (l : List α) (σ : List Nat)
    (hσ : σ.Perm (List.range l.length)) :
    runSchedule g l σ = l.map (fun a => some (g a)) := by
  apply List.ext_getElem?
  intro i
  unfold runSchedule
  rw [foldl_set_get]
  have hmem : i ∈ σ ↔ i < l.length := by
    rw [hσ.mem_iff, List.mem_range]
  by_cases h1 : i < l.length
  · rw [if_pos (hmem.mpr h1), if_pos (by rw [List.length_replicate]; exact h1),
      List.getElem?_map, List.getElem?_eq_getElem h1]
    rfl
  · have h2 : i ∉ σ := fun hh => h1 (hmem.mp hh)
    have hle : l.length ≤ i := Nat.not_lt.mp h1
    rw [if_neg h2, List.getElem?_eq_none (by rw [List.length_replicate]; exact hle),
      List.getElem?_eq_none (by rw [List.length_map]; exact hle)]

theorem gatherSlots_map_some {β γ : Type} (g : γ → β) :
    ∀ (l : List γ), gatherSlots (l.map (fun a => some (g a))) = some (l.map g) := by
  intro l
  induction l with
  | nil => rfl
  | cons a rest ih => simp [gatherSlots, ih]

theorem mapE_map_id {α β ε : Type} (f : α → Except ε β) :
    ∀ l : List α, mapE (fun x => x) (l.map f) = mapE f l := by
  intro l
  induction l with
  | nil => rfl
  | cons a rest ih =>
    simp only [List.map_cons, mapE]
    cases f a with
    | error e => rfl
    | ok b => rw [ih]

/-- Any two full schedules of the parallel phases produce the very bundle of
the serial semantics. -/
theorem buildSched_eq (E : Bytes → Bytes → Option Bytes) (H : Bytes → Bytes)
    (oldList newList : FS) (product fromv tov : Bytes) (de : Bool)
    (σ1 σ2 : List Nat)
    (h1 : σ1.Perm (List.range newList.length))
    (h2 : σ2.Perm (List.range (oldList.filter (notInNew newList)).length)) :
    buildSched E H oldList newList product fromv tov de σ1 σ2 =
      some (build_bundle E H oldList newList product fromv tov de) := by
  simp only [buildSched, runSchedule_perm _ _ _ h1, runSchedule_perm _ _ _ h2,
    gatherSlots_map_some, mapE_map_id]
  unfold build_bundle
  cases mapE (classify E H oldList) newList with
  | error e => rfl
  | ok temps => simp [deletedOf]

/-! ## Trailer lemmas -/

theorem readLE64_lt (l : Bytes) : readLE64 l < 256 ^ l.length := by
  induction l with
  | nil => simp [readLE64]
  | cons b r ih =>
    have hb := b.isLt
    have hstep : readLE64 (b :: r) = b.val + 256 * readLE64 r := rfl
    rw [hstep, List.length_cons, pow_succ]
    calc b.val + 256 * readLE64 r < 256 * (readLE64 r + 1) := by omega
      _ ≤ 256 * 256 ^ r.length := Nat.mul_le_mul (le_refl 256) (Nat.succ_le_of_lt ih)
      _ = 256 ^ r.length * 256 := Nat.mul_comm _ _

theorem footerVal_lt (exe : Bytes) (h : 8 ≤ exe.length) : footerVal exe < 2 ^ 64 := by
  have hlen : (exe.drop (exe.length - 8)).length = 8 := by
    rw [List.length_drop]
    omega
  have h1 := readLE64_lt (exe.drop (exe.length - 8))
  rw [hlen] at h1
  have h2 : (256 : Nat) ^ 8 = 2 ^ 64 := by norm_num
  rw [h2] at h1
  exact h1

/-! ## Verification inversion lemmas -/

theorem verifyEntry_missing (H : Bytes → Bytes) (fs : FS) (f : FileEntry)
    (hkv : kindVerified f.kind = true) (hz : f.original_hash ≠ zeroHash)
    (hm : fsGet fs f.path = none) :
    verifyEntry H fs f = .error (.preconditionMissing f.path) := by
  cases hk : f.kind
  case Added i => rw [hk] at hkv; simp [kindVerified] at hkv
  all_goals simp only [verifyEntry, hk]; rw [if_neg hz, hm]

theorem verifyEntry_mismatch (H : Bytes → Bytes) (fs : FS) (f : FileEntry)
    (hkv : kindVerified f.kind = true) (hz : f.original_hash ≠ zeroHash)
    (c : Bytes) (hc : fsGet fs f.path = some c) (hne : H c ≠ f.original_hash) :
    verifyEntry H fs f = .error (.preconditionMismatch f.path) := by
  cases hk : f.kind
  case Added i => rw [hk] at hkv; simp [kindVerified] at hkv
  all_goals simp only [verifyEntry, hk]; rw [if_neg hz]; simp only [hc]; rw [if_neg hne]

theorem verifyEntry_added (H : Bytes → Bytes) (fs : FS) (f : FileEntry)
    (i : Nat) (hk : f.kind = .Added i) : verifyEntry H fs f = .ok () := by
  simp [verifyEntry, hk]

theorem verifyEntry_ok_inv (H : Bytes → Bytes) (fs : FS) (g : FileEntry)
    (hkv : kindVerified g.kind = true) (hz : g.original_hash ≠ zeroHash)
    (hv : verifyEntry H fs g = .ok ()) :
    ∃ c, fsGet fs g.path = some c ∧ H c = g.original_hash := by
  cases hk : g.kind
  case Added i => rw [hk] at hkv; simp [kindVerified] at hkv
  all_goals
    simp only [verifyEntry, hk] at hv
    rw [if_neg hz] at hv
    cases hfg : fsGet fs g.path with
    | none => simp only [hfg] at hv; cases hv
    | some c =>
      simp only [hfg] at hv
      by_cases hHc : H c = g.original_hash
      · exact ⟨c, rfl, hHc⟩
      · rw [if_neg hHc] at hv; cases hv

theorem verifyFiles_ok_inv (H : Bytes → Bytes) (fs : FS) :
    ∀ (files : List FileEntry), verifyFiles H fs files = .ok () →
      ∀ g ∈ files, kindVerified g.kind = true → g.original_hash ≠ zeroHash →
        ∃ c, fsGet fs g.path = some c ∧ H c = g.original_hash := by
  intro files
  induction files with
  | nil => intro _ g hg; cases hg
  | cons f rest ih =>
    intro h g hg hkv hz
    simp only [verifyFiles] at h
    cases hv : verifyEntry H fs f with
    | error e => simp only [hv] at h; cases h
    | ok u =>
      simp only [hv] at h
      rcases List.mem_cons.mp hg with hg | hg
      · subst hg
        cases u
        exact verifyEntry_ok_inv H fs g hkv hz hv
      · exact ih h g hg hkv hz

theorem verifyThenApply_of_error (H : Bytes → Bytes) (D : Bytes → Bytes → Option Bytes)
    (b : PatchBundle) (fs : FS) (e : StubError)
    (h : verify_base_folder H b fs = .error e) :
    verifyThenApply H D b fs = (some e, fs) := by
  simp [verifyThenApply, h]

theorem runStub_of_load_error (H : Bytes → Bytes) (D : Bytes → Bytes → Option Bytes)
    (exe : Bytes) (fs : FS) (e : StubError) (h : load_bundle exe = .error e) :
    runStub H D exe fs = (some e, fs) := by
  simp [runStub, h]



/-! ## Claim theorems -/

/-- C2: pre-image verification.  An entry of a verified kind with non-zero
`original_hash` fails with *PreconditionMissing* when the target is absent and
with *PreconditionMismatch* when its hash differs; `Added` entries are never
verified; a verification error returns before any apply step with the tree
untouched; and a clean verification certifies every checked entry's
pre-image. -/
theorem c2_preimage_verification (H : Bytes → Bytes) (D : Bytes → Bytes → Option Bytes)
    (b : PatchBundle) (fs : FS) (f : FileEntry) :
    (kindVerified f.kind = true → f.original_hash ≠ zeroHash → fsGet fs f.path = none →
      verifyEntry H fs f = .error (.preconditionMissing f.path)) ∧
    (kindVerified f.kind = true → f.original_hash ≠ zeroHash → ∀ c, fsGet fs f.path = some c →
      H c ≠ f.original_hash → verifyEntry H fs f = .error (.preconditionMismatch f.path)) ∧
    (∀ i, f.kind = .Added i → verifyEntry H fs f = .ok ()) ∧
    (∀ e, verify_base_folder H b fs = .error e → verifyThenApply H D b fs = (some e, fs)) ∧
    (verify_base_folder H b fs = .ok () → ∀ g ∈ b.manifest.files, kindVerified g.kind = true →
      g.original_hash ≠ zeroHash → ∃ c, fsGet fs g.path = some c ∧ H c = g.original_hash) := by
  refine ⟨?_, ?_, ?_, ?_, ?_⟩
  · intro hkv hz hm
    exact verifyEntry_missing H fs f hkv hz hm
  · intro hkv hz c hc hne
    exact verifyEntry_mismatch H fs f hkv hz c hc hne
  · intro i hk
    exact verifyEntry_added H fs f i hk
  · intro e h
    exact verifyThenApply_of_error H D b fs e h
  · intro h g hg
    exact verifyFiles_ok_inv H fs b.manifest.files h g hg

theorem c2_witness :
    verifyEntry hashId [] wEntry = .error (.preconditionMissing [97]) ∧
    verifyEntry hashId [([97], [6])] wEntry = .error (.preconditionMismatch [97]) ∧
    verifyEntry hashId [] wAdded = .ok () ∧
    verifyThenApply hashId decFst wBundle [] = (some (.preconditionMissing [97]), []) ∧
    (∃ c, fsGet [([97], [5])] [97] = some c ∧ hashId c = [5]) := by
  refine ⟨?_, ?_, ?_, ?_, ?_⟩
  · exact (c2_preimage_verification hashId decFst wBundle [] wEntry).1
      (by decide) (by decide) (by decide)
  · exact (c2_preimage_verification hashId decFst wBundle [([97], [6])] wEntry).2.1
      (by decide) (by decide) [6] (by decide) (by decide)
  · exact (c2_preimage_verification hashId decFst wBundle [] wAdded).2.2.1 0 (by decide)
  · exact (c2_preimage_verification hashId decFst wBundle [] wEntry).2.2.2.1
      (.preconditionMissing [97]) (by rfl)
  · exact (c2_preimage_verification hashId decFst wBundle [([97], [5])] wEntry).2.2.2.2
      (by rfl) wEntry (by decide) (by decide) (by decide)

/-- C3: trailer parsing.  `load_bundle` requires `L ≥ 8`; a footer value with
`B + 8 > L` in exact integer arithmetic always fails with an
*InvalidBundle*-kind error (the guard itself when `B + 8` does not wrap, the
bundle read otherwise); and any load error returns before any filesystem
mutation. -/
theorem c3_trailer_parsing (exe : Bytes) (H : Bytes → Bytes)
    (D : Bytes → Bytes → Option Bytes) (fs : FS) (hlen : exe.length < 2 ^ 64) :
    (exe.length < 8 → load_bundle exe = .error .invalidExe) ∧
    (8 ≤ exe.length → footerVal exe + 8 > exe.length →
      ∃ e, load_bundle exe = .error e ∧ InvalidBundleKind e) ∧
    (∀ e, load_bundle exe = .error e → runStub H D exe fs = (some e, fs)) := by
  refine ⟨?_, ?_, ?_⟩
  · intro h
    simp [load_bundle, h]
  · intro h8 hviol
    have hBlt := footerVal_lt exe h8
    by_cases hc : wrap64 (footerVal exe + 8) > exe.length
    · refine ⟨.invalidLen, ?_, Or.inr (Or.inl rfl)⟩
      simp only [load_bundle]
      rw [if_neg (Nat.not_lt.mpr h8), if_pos hc]
    · refine ⟨.shortRead, ?_, Or.inr (Or.inr (Or.inl rfl))⟩
      have hread : ¬ (bundleStart exe.length (footerVal exe) + footerVal exe ≤ exe.length) := by
        have hpow : (2 : Nat) ^ 64 = 18446744073709551616 := by norm_num
        unfold bundleStart wrap64
        unfold wrap64 at hc
        rw [hpow] at hc hBlt hlen ⊢
        omega
      simp only [load_bundle]
      rw [if_neg (Nat.not_lt.mpr h8), if_neg hc, if_neg hread]
  · intro e h
    exact runStub_of_load_error H D exe fs e h

theorem c3_witness :
    load_bundle [1, 2, 3] = .error .invalidExe ∧
    (∃ e, load_bundle exeC3 = .error e ∧ InvalidBundleKind e) ∧
    runStub hashId decFst [1, 2, 3] [] = (some .invalidExe, []) := by
  refine ⟨?_, ?_, ?_⟩
  · exact (c3_trailer_parsing [1, 2, 3] hashId decFst [] (by decide)).1 (by decide)
  · exact (c3_trailer_parsing exeC3 hashId decFst [] (by decide)).2.1 (by decide) (by decide)
  · exact (c3_trailer_parsing [1, 2, 3] hashId decFst [] (by decide)).2.2 .invalidExe (by rfl)

/-- C6: idempotent deletion.  An existing target is unlinked, a missing one
is tolerated as a no-op, re-applying a `Deleted` entry is a no-op, and a
bundle of `Deleted` entries applies twice, the second run changing nothing. -/
theorem c6_idempotent_deletion (D : Bytes → Bytes → Option Bytes)
    (entries : List PatchData) (fs : FS) (f : FileEntry) (b : PatchBundle)
    (hdel : f.kind = .Deleted) :
    (fsExists fs f.path = true → applyEntry D entries fs f = .ok (fsRemove fs f.path)) ∧
    (fsExists fs f.path = false → applyEntry D entries fs f = .ok fs) ∧
    (applyEntry D entries (fsRemove fs f.path) f = .ok (fsRemove fs f.path)) ∧
    ((∀ g ∈ b.manifest.files, g.kind = .Deleted) →
      ∃ fs1, apply_bundle D b fs = (none, fs1) ∧ apply_bundle D b fs1 = (none, fs1)) := by
  refine ⟨?_, ?_, ?_, ?_⟩
  · intro _
    exact applyEntry_deleted D entries fs f hdel
  · intro hne
    have hn : fsGet fs f.path = none := by
      unfold fsExists at hne
      cases hg : fsGet fs f.path with
      | none => rfl
      | some c => rw [hg] at hne; simp at hne
    rw [applyEntry_deleted D entries fs f hdel, fsRemove_of_absent fs f.path hn]
  · rw [applyEntry_deleted D entries (fsRemove fs f.path) f hdel, fsRemove_idem]
  · intro hall
    obtain ⟨fs1, h1, hnone, _⟩ := applyFiles_deleted_all D b.entries b.manifest.files hall fs
    exact ⟨fs1, h1, applyFiles_deleted_noop D b.entries b.manifest.files hall fs1 hnone⟩

theorem c6_witness :
    applyEntry decFst [] [([97], [1])] wDel = .ok [] ∧
    applyEntry decFst [] ([] : FS) wDel = .ok [] ∧
    (∃ fs1, apply_bundle decFst wDelBundle [([97], [1])] = (none, fs1) ∧
      apply_bundle decFst wDelBundle fs1 = (none, fs1)) := by
  refine ⟨?_, ?_, ?_⟩
  · exact (c6_idempotent_deletion decFst [] [([97], [1])] wDel wDelBundle (by rfl)).1 (by decide)
  · exact (c6_idempotent_deletion decFst [] ([] : FS) wDel wDelBundle (by rfl)).2.1 (by rfl)
  · exact (c6_idempotent_deletion decFst [] [([97], [1])] wDel wDelBundle (by rfl)).2.2.2
      (by decide)

/-- C10: frame property.  A successful apply leaves every file untouched
whose path is neither a manifest target nor the temporary sibling of an entry
on the tmp-write path (`Added`/`Patched`), and an `Unchanged` entry returns
the tree exactly as received. -/
theorem c10_frame (D : Bytes → Bytes → Option Bytes) (b : PatchBundle)
    (fs fsF : FS) (h : apply_bundle D b fs = (none, fsF)) :
    (∀ q, (∀ f ∈ b.manifest.files, q ≠ f.path ∧ (kindWrites f.kind = true → q ≠ tmpPath f.path)) →
      fsGet fsF q = fsGet fs q) ∧
    (∀ (entries : List PatchData) (fs2 : FS) (g : FileEntry), g.kind = .Unchanged →
      applyEntry D entries fs2 g = .ok fs2) := by
  refine ⟨?_, ?_⟩
  · intro q hq
    exact applyFiles_frame D b.entries b.manifest.files fs fsF h q hq
  · intro entries fs2 g hg
    exact applyEntry_unchanged D entries fs2 g hg

theorem c10_witness :
    fsGet [([97, 46, 116, 120, 116], [2])] [99] = fsGet ([] : FS) [99] ∧
    applyEntry decFst [] ([([97], [1])] : FS) wUnch = .ok [([97], [1])] := by
  have h := c10_frame decFst bC1 [] [([97, 46, 116, 120, 116], [2])] (by rfl)
  exact ⟨h.1 [99] (by decide), h.2 [] [([97], [1])] wUnch (by rfl)⟩



/-- C4: builder invariant.  In every bundle the builder returns, each
`Patched`/`Added` index points at an existing slot of the matching payload
variant (`Unchanged`/`Deleted` carry no index by construction of
`PatchKind`), and the referenced indices, read in manifest order, are exactly
`0, 1, 2, …` — every slot referenced exactly once. -/
theorem c4_builder_invariant (E : Bytes → Bytes → Option Bytes) (H : Bytes → Bytes)
    (oldList newList : FS) (product fromv tov : Bytes) (de : Bool) (b : PatchBundle)
    (hb : build_bundle E H oldList newList product fromv tov de = .ok b) :
    (∀ f ∈ b.manifest.files,
      (∀ i, f.kind = .Patched i → ∃ patch, b.entries[i]? = some (.Xdelta patch)) ∧
      (∀ i, f.kind = .Added i → ∃ c, b.entries[i]? = some (.Full c)) ∧
      (∀ i, f.kind = .Patched i ∨ f.kind = .Added i → i < b.entries.length)) ∧
    refIdxs b.manifest.files = List.range b.entries.length := by
  obtain ⟨temps, hm, hbe⟩ := build_bundle_eq E H oldList newList product fromv tov de b hb
  subst hbe
  have hS : ∀ t ∈ temps, t.kind = .Unchanged ∨ (∃ patch, t.kind = .Patched (.Xdelta patch)) ∨
      (∃ c, t.kind = .Added (.Full c)) := by
    intro t ht
    obtain ⟨rec, hrec, hcl⟩ := forall₂_mem_right (mapE_forall₂ _ _ _ hm) t ht
    exact (classify_shape _ _ _ _ _ hcl).2
  constructor
  · intro f hf
    rcases List.mem_append.mp hf with hf | hf
    · have h1 := filesOfTemps_refok temps 0 (entriesOfTemps temps)
        (by intro j d hj; rw [Nat.zero_add]; exact hj) hS f hf
      refine ⟨h1.1, h1.2, ?_⟩
      intro i hi
      by_contra hge
      rcases hi with hi | hi
      · obtain ⟨patch, hp⟩ := h1.1 i hi
        rw [List.getElem?_eq_none (Nat.not_lt.mp hge)] at hp
        cases hp
      · obtain ⟨c, hp⟩ := h1.2 i hi
        rw [List.getElem?_eq_none (Nat.not_lt.mp hge)] at hp
        cases hp
    · have hd := (deletedOf_mem H oldList newList de f hf).1
      refine ⟨?_, ?_, ?_⟩
      · intro i hi
        rw [hd] at hi
        cases hi
      · intro i hi
        rw [hd] at hi
        cases hi
      · intro i hi
        rcases hi with hi | hi <;> (rw [hd] at hi; cases hi)
  · rw [refIdxs_append, refIdxs_filesOfTemps temps 0,
      refIdxs_all_deleted _ (fun f hf => (deletedOf_mem H oldList newList de f hf).1),
      List.append_nil, List.range_eq_range']

theorem c4_witness :
    refIdxs bC1.manifest.files = List.range bC1.entries.length ∧
    (∃ c, bC1.entries[0]? = some (.Full c)) := by
  have h := c4_builder_invariant encFst hashId [] newC1 [] [] [] false bC1 (by rfl)
  refine ⟨h.2, ?_⟩
  exact (h.1 ⟨[97, 46, 116, 109, 112], .Added 0, zeroHash, [1]⟩ (by decide)).2.1 0 (by rfl)

/-- C5: manifest ordering and parallel determinism.  The manifest is the
new-tree entries in enumeration order followed by the `Deleted` tail in
old-tree enumeration order, and executing the two parallel phases under any
full worker completion orders reproduces the serial bundle exactly. -/
theorem c5_order_determinism (E : Bytes → Bytes → Option Bytes) (H : Bytes → Bytes)
    (oldList newList : FS) (product fromv tov : Bytes) (de : Bool) (b : PatchBundle)
    (σ1 σ2 : List Nat)
    (hb : build_bundle E H oldList newList product fromv tov de = .ok b)
    (h1 : σ1.Perm (List.range newList.length))
    (h2 : σ2.Perm (List.range (oldList.filter (notInNew newList)).length)) :
    (∃ fs1, b.manifest.files = fs1 ++ deletedOf H oldList newList de ∧
      fs1.map FileEntry.path = newList.map Prod.fst) ∧
    (deletedOf H oldList newList true).map FileEntry.path =
      (oldList.filter (notInNew newList)).map Prod.fst ∧
    buildSched E H oldList newList product fromv tov de σ1 σ2 = some (.ok b) := by
  obtain ⟨temps, hm, hbe⟩ := build_bundle_eq E H oldList newList product fromv tov de b hb
  refine ⟨⟨filesOfTemps 0 temps, by rw [hbe], ?_⟩,
    deletedOf_true_map_path H oldList newList, ?_⟩
  · rw [filesOfTemps_map_path, temps_map_path E H oldList newList temps hm]
  · rw [buildSched_eq E H oldList newList product fromv tov de σ1 σ2 h1 h2, hb]

theorem c5_witness :
    (∃ fs1, bC5.manifest.files = fs1 ++ deletedOf hashId [] newC5 false ∧
      fs1.map FileEntry.path = newC5.map Prod.fst) ∧
    buildSched encFst hashId [] newC5 [] [] [] false [1, 0] [] = some (.ok bC5) := by
  have h := c5_order_determinism encFst hashId [] newC5 [] [] [] false bC5 [1, 0] []
    (by rfl) (by decide) (by decide)
  exact ⟨h.1, h.2.2⟩

set_option maxRecDepth 8000 in
/-- C7 counterexample: a bundle whose second entry is `Patched {idx: 0}` while
slot 0 is `Full` decodes successfully — `load_bundle` performs no cross-variant
validation — and the violation only surfaces when that entry is applied, by
which time the first entry has already created a file. -/
theorem c7_counterexample :
    load_bundle exeC7 = .ok bundleC7 ∧
    bundleC7.entries[0]? = some (.Full [7]) ∧
    (bundleC7.manifest.files[1]?).map FileEntry.kind = some (.Patched 0) ∧
    runStub hashId decFst exeC7 [] = (some (.wrongData [98]), [([97], [7])]) := by
  exact ⟨by rfl, by rfl, by rfl, by decide⟩

/-- C7 (amended): the cross-variant invariant is not validated at decode time;
a kind/payload mismatch or out-of-range index is detected lazily, when the
offending entry itself is applied. -/
theorem c7_lazy_validation (D : Bytes → Bytes → Option Bytes) (es : List PatchData)
    (fs : FS) (f : FileEntry) :
    (∀ i, f.kind = .Patched i → es[i]? = none →
      applyEntry D es fs f = .error (.invalidIdx f.path)) ∧
    (∀ i bs, f.kind = .Patched i → es[i]? = some (.Full bs) →
      applyEntry D es fs f = .error (.wrongData f.path)) ∧
    (∀ i, f.kind = .Added i → es[i]? = none →
      applyEntry D es fs f = .error (.invalidIdx f.path)) ∧
    (∀ i bs, f.kind = .Added i → es[i]? = some (.Xdelta bs) →
      applyEntry D es fs f = .error (.wrongData f.path)) := by
  refine ⟨?_, ?_, ?_, ?_⟩
  · intro i hk he
    simp [applyEntry, hk, he]
  · intro i bs hk he
    simp [applyEntry, hk, he]
  · intro i hk he
    simp [applyEntry, hk, he]
  · intro i bs hk he
    simp [applyEntry, hk, he]

theorem c7_witness :
    applyEntry decFst [.Full [7]] [] (⟨[98], .Patched 0, zeroHash, zeroHash⟩ : FileEntry) =
      .error (.wrongData [98]) ∧
    applyEntry decFst [] [] (⟨[98], .Added 3, zeroHash, zeroHash⟩ : FileEntry) =
      .error (.invalidIdx [98]) := by
  constructor
  · exact (c7_lazy_validation decFst [.Full [7]] []
      ⟨[98], .Patched 0, zeroHash, zeroHash⟩).2.1 0 [7] (by rfl) (by rfl)
  · exact (c7_lazy_validation decFst [] []
      ⟨[98], .Added 3, zeroHash, zeroHash⟩).2.2.1 3 (by rfl) (by rfl)

/-- C8: with a footer value `B ≥ 2^64 − 8`, the guard `bundle_len + 8 > len`
is evaluated in wrapping u64 arithmetic: the sum wraps below 8, the guard
does not fire although `B + 8 > L` exactly, the seek offset `L − 8 − B`
wraps as well, and the load fails only afterwards, at the bundle read. -/
theorem c8_wrapping_guard (exe : Bytes) (h8 : 8 ≤ exe.length)
    (hlen : exe.length < 2 ^ 64) (hB : 2 ^ 64 - 8 ≤ footerVal exe) :
    wrap64 (footerVal exe + 8) = footerVal exe + 8 - 2 ^ 64 ∧
    wrap64 (footerVal exe + 8) < 8 ∧
    ¬ (wrap64 (footerVal exe + 8) > exe.length) ∧
    bundleStart exe.length (footerVal exe) =
      exe.length - (footerVal exe + 8 - 2 ^ 64) ∧
    load_bundle exe = .error .shortRead ∧
    load_bundle exe ≠ .error .invalidLen := by
  have hBlt := footerVal_lt exe h8
  have hpow : (2 : Nat) ^ 64 = 18446744073709551616 := by norm_num
  have h1 : wrap64 (footerVal exe + 8) = footerVal exe + 8 - 2 ^ 64 := by
    unfold wrap64
    rw [hpow] at hB hBlt ⊢
    omega
  have h2 : wrap64 (footerVal exe + 8) < 8 := by
    unfold wrap64
    rw [hpow] at hB hBlt ⊢
    omega
  have h3 : ¬ (wrap64 (footerVal exe + 8) > exe.length) :=
    Nat.not_lt.mpr (Nat.le_of_lt (Nat.lt_of_lt_of_le h2 h8))
  have h4 : bundleStart exe.length (footerVal exe) =
      exe.length - (footerVal exe + 8 - 2 ^ 64) := by
    unfold bundleStart wrap64
    rw [hpow] at hB hBlt hlen ⊢
    omega
  have h5 : load_bundle exe = .error .shortRead := by
    have hread : ¬ (bundleStart exe.length (footerVal exe) + footerVal exe ≤ exe.length) := by
      rw [h4]
      rw [hpow] at hB hBlt hlen ⊢
      omega
    simp only [load_bundle]
    rw [if_neg (Nat.not_lt.mpr h8), if_neg h3, if_neg hread]
  refine ⟨h1, h2, h3, h4, h5, ?_⟩
  rw [h5]
  simp

theorem c8_witness :
    wrap64 (footerVal exeC8 + 8) = 0 ∧
    ¬ (wrap64 (footerVal exeC8 + 8) > exeC8.length) ∧
    load_bundle exeC8 = .error .shortRead ∧
    load_bundle exeC8 ≠ .error .invalidLen := by
  have h := c8_wrapping_guard exeC8 (by decide) (by decide) (by decide)
  refine ⟨?_, h.2.2.1, h.2.2.2.2.1, h.2.2.2.2.2⟩
  rw [h.1]
  decide

/-- C9: `borrow_decode_from_slice` reports the consumed count and ignores
trailing bytes, and `load_bundle` never checks that count: this executable's
footer claims 10 bundle bytes although the true encoding of the decoded bundle
is only 5 bytes long, the 5 surplus bytes sitting in the stub region, yet the
load succeeds. -/
theorem c9_trailing_bytes_ignored :
    exeC9 = List.replicate 5 0 ++ encodePatchBundle emptyBundle ++ leBytes 8 10 ∧
    footerVal exeC9 = 10 ∧
    (encodePatchBundle emptyBundle).length = 5 ∧
    decodePatchBundle (List.replicate 10 0) = some (emptyBundle, List.replicate 5 0) ∧
    load_bundle exeC9 = .ok emptyBundle := by
  exact ⟨by decide, by decide, by decide, by rfl, by rfl⟩



end XPatch
